import Mathlib

/-!
# Verification of the Bayaan sentence-accumulation and translation-dispatch pipeline

Shallow embedding of the core of the Bayaan server:

* `extract_complete_sentences` — the punctuation-based sentence segmenter
  (`src/backup_20250728_212515/text_processing.py`), with Python's
  `str.strip`, `re.split(r'([.!?؟])', ...)` and the building loop embedded
  over `List Char`.
* `step` / `run` — the per-fragment accumulation logic of
  `_forward_transcription` in `src/main.py` (sentence buffer, duplicate
  suppression, sentence-id management, broadcast and translate dispatch
  events).
* `translate` — the retry loop and sliding-window history of
  `Translator.translate` / `Translator._perform_translation`
  (`src/translator.py`), with the provider modelled as an oracle giving
  each attempt's outcome.

Strings are modelled as `List Char`; Python truthiness of a string is
emptiness of the list.
-/

/-- Python whitespace characters recognised by `str.strip()`. -/
def pyIsSpace (c : Char) : Bool :=
  c = ' ' || c = '\t' || c = '\n' || c = '\r' || c = '\x0b' || c = '\x0c'

/-- Python `str.strip()`: drop trailing whitespace (via reverse), then leading. -/
def strip (s : List Char) : List Char :=
  ((s.reverse.dropWhile pyIsSpace).reverse).dropWhile pyIsSpace

/-- `sentence_endings = ['.', '!', '?', '؟']` from `text_processing.py`. -/
def sentence_endings : List Char := ['.', '!', '?', '؟']

/-- Membership of a single character in `sentence_endings`. -/
def isPunct (c : Char) : Bool := sentence_endings.contains c

/-- A string equals one of the one-character strings in `sentence_endings`
(Python `part in sentence_endings` on strings). -/
def isPunctStr (s : List Char) : Bool :=
  match s with
  | [c] => isPunct c
  | _ => false

/-- The sentinel returned for standalone punctuation
(`return ["PUNCTUATION_COMPLETE"], ""`). -/
def PUNCTUATION_COMPLETE : List Char := "PUNCTUATION_COMPLETE".toList

/-- `re.split(r'([.!?؟])', text)`: split at each ending-punctuation character,
keeping each delimiter as its own element; chunks between delimiters may be
empty, and the list always starts and ends with a (possibly empty) chunk. -/
def splitPunct : List Char → List (List Char)
  | [] => [[]]
  | c :: rest =>
    if isPunct c then [] :: [c] :: splitPunct rest
    else
      match splitPunct rest with
      | [] => [[c]]
      | p :: ps => (c :: p) :: ps

/-- The `while i < len(parts)` loop of `extract_complete_sentences`: walk the
split parts, skipping blank parts, closing a sentence at each punctuation
part, and otherwise joining stripped parts into `current_building` with a
single space.  Returns the completed sentences and the final
`current_building`. -/
def buildSentences : List (List Char) → List Char → List (List Char) × List Char
  | [], building => ([], building)
  | part :: rest, building =>
    let p := strip part
    if p = [] then buildSentences rest building
    else if isPunctStr p then
      if strip building = [] then buildSentences rest building
      else
        let r := buildSentences rest []
        ((strip building ++ p) :: r.1, r.2)
    else
      buildSentences rest (if building = [] then p else building ++ ' ' :: p)

/-- `extract_complete_sentences` from
`src/backup_20250728_212515/text_processing.py`: empty/whitespace input gives
`([], "")`; a standalone ending-punctuation character gives the
`PUNCTUATION_COMPLETE` marker; otherwise sentences are rebuilt from the
punctuation-split parts and the leftover building becomes the remainder. -/
def extract_complete_sentences (text : List Char) : List (List Char) × List Char :=
  if strip text = [] then ([], [])
  else if isPunctStr (strip text) then ([PUNCTUATION_COMPLETE], [])
  else
    let r := buildSentences (splitPunct text) []
    (r.1, if strip r.2 = [] then [] else strip r.2)

/-!
## Accumulation engine (`_forward_transcription` in `src/main.py`)

Per-room mutable state of the FINAL_TRANSCRIPT handler.  `uuid.uuid4()`
calls are modelled by a counter `next_id`; each generated sentence id is a
fresh natural number.  The handler's side effects (publishing the original
transcription, broadcasting fragment and sentence-complete events, and
dispatching sentences to `translate_sentences`) are recorded as an ordered
event list.  The `if translators:` guard of `main.py` is modelled as always
true: `entrypoint` installs at least one translator before the handler runs
(lines 326–335) and translators are only ever added, never removed.
-/

/-- The mutable locals of `_forward_transcription`
(`accumulated_text`, `last_final_transcript`, `current_sentence_id`),
plus the fresh-id counter modelling `uuid.uuid4()`. -/
structure AccState where
  accumulated_text : List Char
  last_final_transcript : List Char
  current_sentence_id : Option Nat
  next_id : Nat
deriving DecidableEq, Repr

/-- Initial state: empty buffer, no previous transcript, no sentence id
(`main.py` lines 337–341). -/
def initState : AccState :=
  { accumulated_text := [], last_final_transcript := [], current_sentence_id := none, next_id := 0 }

/-- Observable side effects of one fragment-processing step, in program
order: `publish_transcription` of the original text, the fragment-level
broadcast (`is_complete=False, is_fragment=True`), the sentence-complete
broadcast (`is_complete=True, is_fragment=False`), and the dispatch of a
sentence to `translate_sentences`. -/
inductive Event where
  | publishFinal (text : List Char)
  | broadcastFragment (text : List Char) (sid : Nat)
  | broadcastComplete (text : List Char) (sid : Nat)
  | dispatchTranslate (text : List Char) (sid : Nat)
deriving DecidableEq, Repr

/-- `translate_sentences([t], translators, ..., sid)` from
`src/backup_20250727_213400/translation_helpers.py`: with a non-empty
translator set, the sentence is sent to the translators exactly when
`t.strip()` is non-empty. -/
def dispatchEvs (t : List Char) (sid : Nat) : List Event :=
  if strip t = [] then [] else [Event.dispatchTranslate t sid]

/-- The `for sentence in complete_sentences:` loop of `main.py` lines
455–469: each sentence is broadcast as complete and dispatched; it keeps the
current sentence id when exactly one sentence was extracted (`fresh =
false`) and a fresh `uuid.uuid4()` per sentence otherwise.  Returns the
events and the updated fresh-id counter. -/
def emitSentences : List (List Char) → Nat → Bool → Nat → List Event × Nat
  | [], _, _, nid => ([], nid)
  | t :: rest, sid, fresh, nid =>
    let tid := if fresh then nid else sid
    let nid1 := if fresh then nid + 1 else nid
    let r := emitSentences rest sid fresh nid1
    (Event.broadcastComplete t tid :: (dispatchEvs t tid ++ r.1), r.2)

/-- One FINAL_TRANSCRIPT event of `_forward_transcription` (`src/main.py`
lines 358–484), for the raw top-alternative text `raw`:
strip; drop empty or duplicate text; remember the text; lazily create a
sentence id; publish and broadcast the fragment; append to
`accumulated_text`; run the segmenter; then either handle the
`PUNCTUATION_COMPLETE` signal, emit the extracted sentences, or keep
accumulating. -/
def step (s : AccState) (raw : List Char) : AccState × List Event :=
  let ft := strip raw
  if ft = [] ∨ ft = s.last_final_transcript then (s, [])
  else
    let s1 : AccState := { s with last_final_transcript := ft }
    let idp :=
      match s1.current_sentence_id with
      | some i => (i, s1)
      | none => (s1.next_id,
          { s1 with current_sentence_id := some s1.next_id, next_id := s1.next_id + 1 })
    let sid := idp.1
    let s2 := idp.2
    let baseEvs := [Event.publishFinal ft, Event.broadcastFragment ft sid]
    let acc := if s2.accumulated_text = [] then ft else strip s2.accumulated_text ++ ' ' :: ft
    let ex := extract_complete_sentences acc
    if ex.1.head? = some PUNCTUATION_COMPLETE then
      if strip acc = [] then
        ({ s2 with accumulated_text := acc }, baseEvs)
      else
        ({ s2 with accumulated_text := [], current_sentence_id := none },
         baseEvs ++ Event.broadcastComplete acc sid :: dispatchEvs acc sid)
    else if ex.1 = [] then
      ({ s2 with accumulated_text := acc }, baseEvs)
    else
      let er := emitSentences ex.1 sid (decide (ex.1.length ≠ 1)) s2.next_id
      if ex.2 = [] then
        ({ s2 with accumulated_text := ex.2, current_sentence_id := none, next_id := er.2 },
         baseEvs ++ er.1)
      else
        ({ s2 with accumulated_text := ex.2, current_sentence_id := some er.2, next_id := er.2 + 1 },
         baseEvs ++ er.1)

/-- Process a sequence of raw FINAL_TRANSCRIPT texts in arrival order,
collecting all emitted events. -/
def run (s : AccState) : List (List Char) → AccState × List Event
  | [] => (s, [])
  | f :: fs =>
    let r := step s f
    let r2 := run r.1 fs
    (r2.1, r.2 ++ r2.2)

/-- Texts of sentence-complete broadcasts in an event list. -/
def completedTexts (evs : List Event) : List (List Char) :=
  evs.filterMap fun e =>
    match e with
    | Event.broadcastComplete t _ => some t
    | _ => none

/-- Texts dispatched for translation in an event list. -/
def dispatchedTexts (evs : List Event) : List (List Char) :=
  evs.filterMap fun e =>
    match e with
    | Event.dispatchTranslate t _ => some t
    | _ => none

/-!
## Translation worker (`Translator` in `src/translator.py`)

The worker's mutable state is its message history (a `deque` with
`maxlen = max_context_pairs * 2`), and its success/error counters.  The
provider call `_perform_translation`'s outcome is modelled by an oracle
mapping the attempt number to either an exception or a returned string;
on a returned non-empty string the history pair is appended (inside
`_perform_translation`) and the success counter bumped, on a raised
exception the error counter is bumped and the `while retry_count <=
max_retries` loop retries.  The catch-all `except` plus the final
`return ""` mean `translate` always returns normally, which the model
reflects by being a total function.
-/

/-- Role of one history entry. -/
inductive Role where
  | user
  | assistant
deriving DecidableEq, Repr

/-- One entry of `message_history` (`{"role": ..., "content": ...}`). -/
structure Msg where
  role : Role
  content : List Char
deriving DecidableEq, Repr

/-- `collections.deque(maxlen=n).append(m)`: appends to the right, discarding
the leftmost entry when the deque is full (and keeping nothing when
`maxlen = 0`). -/
def dequeAppend (maxlen : Nat) (q : List Msg) (m : Msg) : List Msg :=
  if maxlen = 0 then []
  else if q.length < maxlen then q ++ [m]
  else q.drop 1 ++ [m]

/-- Worker construction parameters fixed for the worker's lifetime:
`use_context` (class-level, from config) and `max_context_pairs`
(resolved once in `__init__` via `get_context_window_size`). -/
structure TranslatorConfig where
  use_context : Bool
  max_context_pairs : Nat
deriving DecidableEq, Repr

/-- `config.translation.get_context_window_size` (`src/config.py` lines
141–147): a truthy `context_window_size` in the room config is clamped to
`[3, 20]`; otherwise the default `max_context_pairs` applies. -/
def get_context_window_size (room_context_window : Option Nat) (default_pairs : Nat) : Nat :=
  match room_context_window with
  | some n => if n ≠ 0 then max 3 (min 20 n) else default_pairs
  | none => default_pairs

/-- `TranslationConfig.max_context_pairs` default (`src/config.py` line 56). -/
def default_max_context_pairs : Nat := 12

/-- Mutable per-worker state (`message_history`, `translation_count`,
`error_count`). -/
structure TranslatorState where
  message_history : List Msg
  translation_count : Nat
  error_count : Nat
deriving DecidableEq, Repr

/-- A fresh worker (`Translator.__init__`). -/
def initTranslator : TranslatorState :=
  { message_history := [], translation_count := 0, error_count := 0 }

/-- Outcome of one `_perform_translation` provider invocation: an exception,
or the accumulated streamed output. -/
inductive Attempt where
  | raises
  | returns (s : List Char)

/-- The history update at the end of `_perform_translation` (lines 264–268):
when `use_context` holds and the streamed output is non-empty, append the
`(user, message)` and `(assistant, output)` entries to the deque. -/
def recordPair (cfg : TranslatorConfig) (h : List Msg) (msg t : List Char) : List Msg :=
  if cfg.use_context && !t.isEmpty then
    dequeAppend (cfg.max_context_pairs * 2)
      (dequeAppend (cfg.max_context_pairs * 2) h ⟨Role.user, msg⟩)
      ⟨Role.assistant, t⟩
  else h

/-- The `while retry_count <= max_retries` loop of `Translator.translate`
(lines 103–141), with `fuel = max_retries + 1 - retry_count` loop iterations
remaining.  Returns the final worker state, the returned string, and the
number of provider invocations made. -/
def translateGo (cfg : TranslatorConfig) (s : TranslatorState) (msg : List Char)
    (oracle : Nat → Attempt) : Nat → Nat → TranslatorState × List Char × Nat
  | _, 0 => (s, [], 0)
  | retry_count, fuel + 1 =>
    match oracle retry_count with
    | Attempt.returns t =>
      let s1 : TranslatorState := { s with message_history := recordPair cfg s.message_history msg t }
      if t = [] then (s1, [], 1)
      else ({ s1 with translation_count := s1.translation_count + 1 }, t, 1)
    | Attempt.raises =>
      let s1 : TranslatorState := { s with error_count := s.error_count + 1 }
      let r := translateGo cfg s1 msg oracle (retry_count + 1) fuel
      (r.1, r.2.1, r.2.2 + 1)

/-- `Translator.translate(message, sentence_id, max_retries)` (lines
81–150): empty or whitespace-only messages return `""` with no provider
call; otherwise the retry loop runs, and after exhausting retries the
call returns `""` rather than raising. -/
def Translator.translate (cfg : TranslatorConfig) (s : TranslatorState) (msg : List Char)
    (oracle : Nat → Attempt) (max_retries : Nat) : TranslatorState × List Char × Nat :=
  if strip msg = [] then (s, [], 0)
  else translateGo cfg s msg oracle 0 (max_retries + 1)

/-- One `translate` call's inputs, for iterating calls on one worker. -/
structure Call where
  msg : List Char
  oracle : Nat → Attempt
  max_retries : Nat

/-- Sequential `translate` calls on one worker. -/
def runTranslator (cfg : TranslatorConfig) (s : TranslatorState) : List Call → TranslatorState
  | [] => s
  | c :: cs => runTranslator cfg (Translator.translate cfg s c.msg c.oracle c.max_retries).1 cs

/-- Flatten a list of `(user_text, assistant_text)` pairs into history
entries. -/
def pairsFlat (ps : List (List Char × List Char)) : List Msg :=
  (ps.map fun p => [Msg.mk Role.user p.1, Msg.mk Role.assistant p.2]).flatten

/-- The provider that raises on every attempt. -/
def alwaysRaises : Nat → Attempt := fun _ => Attempt.raises

/-!
## Auxiliary predicates used by the statements
-/

/-- Some two consecutive characters are both whitespace. -/
def hasDoubleSpace : List Char → Bool
  | c1 :: c2 :: rest => (pyIsSpace c1 && pyIsSpace c2) || hasDoubleSpace (c2 :: rest)
  | _ => false

/-- A string with no leading and no trailing whitespace. -/
def Stripped (l : List Char) : Prop :=
  l.dropWhile pyIsSpace = l ∧ l.reverse.dropWhile pyIsSpace = l.reverse

/-- The buffer invariant of the accumulation engine: the pending text is
empty exactly when no sentence id is set. -/
def AccInv (s : AccState) : Prop :=
  s.accumulated_text = [] ↔ s.current_sentence_id = none

/-- Concatenation of well-formed punctuated sentences
`body₁ ++ punct₁ ++ body₂ ++ punct₂ ++ ...`. -/
def sentencesFlat (ss : List (List Char × Char)) : List Char :=
  (ss.map fun pr => pr.1 ++ [pr.2]).flatten

/-- The `re.split` parts arising from `sentencesFlat`: each body followed by
its punctuation character as its own part. -/
def sentenceParts (ss : List (List Char × Char)) : List (List Char) :=
  (ss.map fun pr => [pr.1, [pr.2]]).flatten

/-- A well-formed punctuated sentence: a body that is not entirely
whitespace, contains no ending punctuation of its own, followed by one
ending-punctuation character. -/
def WFSentence (pr : List Char × Char) : Prop :=
  strip pr.1 ≠ [] ∧ (∀ x ∈ pr.1, isPunct x = false) ∧ isPunct pr.2 = true

instance (pr : List Char × Char) : Decidable (WFSentence pr) := by
  unfold WFSentence
  infer_instance

/-!
## Basic lemmas about `strip`
-/

theorem mem_dropWhile_of_not {α : Type} {p : α → Bool} {x : α} :
    ∀ {l : List α}, x ∈ l → p x = false → x ∈ l.dropWhile p := by
  intro l
  induction l with
  | nil => intro h _; cases h
  | cons a t ih =>
    intro hx hpx
    by_cases h : p a
    · rw [List.dropWhile_cons_of_pos h]
      rcases List.mem_cons.mp hx with rfl | hm
      · rw [h] at hpx; cases hpx
      · exact ih hm hpx
    · rw [List.dropWhile_cons_of_neg h]
      exact hx

theorem mem_of_mem_dropWhile {α : Type} {p : α → Bool} {x : α} {l : List α}
    (h : x ∈ l.dropWhile p) : x ∈ l :=
  (List.dropWhile_sublist p).subset h

theorem mem_strip_of_not_space {x : Char} {l : List Char}
    (hx : x ∈ l) (h : pyIsSpace x = false) : x ∈ strip l := by
  unfold strip
  apply mem_dropWhile_of_not _ h
  rw [List.mem_reverse]
  apply mem_dropWhile_of_not _ h
  rw [List.mem_reverse]
  exact hx

theorem mem_of_mem_strip {x : Char} {l : List Char} (hx : x ∈ strip l) : x ∈ l := by
  unfold strip at hx
  have h1 := mem_of_mem_dropWhile hx
  rw [List.mem_reverse] at h1
  have h2 := mem_of_mem_dropWhile h1
  rwa [List.mem_reverse] at h2

theorem dropWhile_idem {α : Type} (p : α → Bool) (l : List α) :
    (l.dropWhile p).dropWhile p = l.dropWhile p := by
  cases h : l.dropWhile p with
  | nil => simp
  | cons a t =>
    have hh := List.head?_dropWhile_not p l
    rw [h] at hh
    simp only [List.head?_cons] at hh
    rw [List.dropWhile_cons_of_neg]
    simp [hh]

theorem reverse_dropWhile_fix {α : Type} {p : α → Bool} :
    ∀ {l : List α}, l.reverse.dropWhile p = l.reverse →
      (l.dropWhile p).reverse.dropWhile p = (l.dropWhile p).reverse := by
  intro l
  induction l with
  | nil => intro _; simp
  | cons a t ih =>
    intro h
    by_cases hp : p a
    · rw [List.dropWhile_cons_of_pos hp]
      apply ih
      rw [List.reverse_cons, List.dropWhile_append] at h
      by_cases he : (t.reverse.dropWhile p).isEmpty
      · rw [if_pos he] at h
        rw [List.dropWhile_cons_of_pos hp] at h
        simp at h
      · rw [if_neg he] at h
        exact List.append_cancel_right h
    · rw [List.dropWhile_cons_of_neg hp]
      exact h

theorem stripped_strip (l : List Char) : Stripped (strip l) := by
  constructor
  · exact dropWhile_idem _ _
  · unfold strip
    apply reverse_dropWhile_fix
    rw [List.reverse_reverse]
    exact dropWhile_idem _ _

theorem strip_eq_self_of_stripped {l : List Char} (h : Stripped l) : strip l = l := by
  unfold strip
  rw [h.2, List.reverse_reverse, h.1]

theorem strip_idem (l : List Char) : strip (strip l) = strip l :=
  strip_eq_self_of_stripped (stripped_strip l)

theorem stripped_append {l : List Char} {c : Char}
    (h : Stripped l) (hc : pyIsSpace c = false) : Stripped (l ++ [c]) := by
  constructor
  · rw [List.dropWhile_append, h.1]
    by_cases he : l.isEmpty
    · rw [if_pos (by simp_all)]
      rw [List.dropWhile_cons_of_neg (by simp [hc])]
      simp at he
      simp [he]
    · rw [if_neg (by simp_all)]
  · rw [List.reverse_append]
    simp only [List.reverse_cons, List.reverse_nil, List.nil_append, List.singleton_append]
    rw [List.dropWhile_cons_of_neg (by simp [hc])]

theorem strip_append_of_not_space {l : List Char} {c : Char} (hc : pyIsSpace c = false) :
    strip (strip l ++ [c]) = strip l ++ [c] :=
  strip_eq_self_of_stripped (stripped_append (stripped_strip l) hc)

theorem isPunct_not_space {c : Char} (hc : isPunct c = true) : pyIsSpace c = false := by
  have hm : c ∈ sentence_endings := by simpa [isPunct] using hc
  fin_cases hm <;> decide

theorem strip_single_punct {c : Char} (hc : isPunct c = true) : strip [c] = [c] := by
  have hs := isPunct_not_space hc
  unfold strip
  simp [List.dropWhile_cons_of_neg, hs]

theorem strip_ne_nil_of_mem {x : Char} {l : List Char}
    (hx : x ∈ l) (h : pyIsSpace x = false) : strip l ≠ [] :=
  List.ne_nil_of_mem (mem_strip_of_not_space hx h)

/-!
## Claims C1 and C2 — the punctuation-fragment scenarios
-/

/-- C1 (counterexample): for the fragment sequence `["مرحبا", "بكم", "."]`
from the empty buffer, the single dispatched sentence text is
`"مرحبا بكم."` — the punctuation fragment is first appended to the pending
text, so the sentence completes through the ordinary extraction path and
carries the final period, not the bare pending text `"مرحبا بكم"` the claim
states. -/
theorem C1_counterexample :
    dispatchedTexts (run initState ["مرحبا".toList, "بكم".toList, ".".toList]).2
        = ["مرحبا بكم.".toList]
      ∧ "مرحبا بكم".toList
          ∉ dispatchedTexts (run initState ["مرحبا".toList, "بكم".toList, ".".toList]).2 := by
  decide

/-- C1 (amended): ingesting `["مرحبا", "بكم", "."]` into the empty buffer
emits exactly one sentence-complete notification and exactly one translation
dispatch, both with text `"مرحبا بكم."` (the pending text with the
punctuation appended), and afterwards the buffer is empty and the sentence
id unset. -/
theorem C1_amended :
    completedTexts (run initState ["مرحبا".toList, "بكم".toList, ".".toList]).2
        = ["مرحبا بكم.".toList]
      ∧ dispatchedTexts (run initState ["مرحبا".toList, "بكم".toList, ".".toList]).2
          = ["مرحبا بكم.".toList]
      ∧ (run initState ["مرحبا".toList, "بكم".toList, ".".toList]).1.accumulated_text = []
      ∧ (run initState ["مرحبا".toList, "بكم".toList, ".".toList]).1.current_sentence_id = none := by
  decide

/-- C2 (counterexample): ingesting the lone punctuation fragment `"."` into
the empty buffer is not a no-op: the code first appends the fragment to the
(empty) buffer, so `accumulated_text` is `"."`, the completion signal fires
with non-empty accumulated text, and a sentence-complete broadcast and a
translation dispatch (both with text `"."`) are emitted. -/
theorem C2_counterexample :
    completedTexts (run initState [".".toList]).2 = [".".toList]
      ∧ dispatchedTexts (run initState [".".toList]).2 = [".".toList] := by
  decide

/-- C2 (amended): a fragment consisting solely of one sentence-ending
punctuation character, ingested while the pending text is empty, is itself
accumulated and then completed: the punctuation character is broadcast as a
completed sentence and dispatched for translation, and the buffer ends
empty with the sentence id unset. -/
theorem C2_amended (c : Char) (hc : isPunct c = true) :
    step initState [c] =
      ({ accumulated_text := [], last_final_transcript := [c],
         current_sentence_id := none, next_id := 1 },
       [Event.publishFinal [c], Event.broadcastFragment [c] 0,
        Event.broadcastComplete [c] 0, Event.dispatchTranslate [c] 0]) := by
  have hm : c ∈ sentence_endings := by simpa [isPunct] using hc
  fin_cases hm <;> decide

/-- Witness for `C2_amended` at `c = '.'`. -/
theorem C2_amended_witness :
    isPunct '.' = true
      ∧ step initState ['.'] =
          ({ accumulated_text := [], last_final_transcript := ['.'],
             current_sentence_id := none, next_id := 1 },
           [Event.publishFinal ['.'], Event.broadcastFragment ['.'] 0,
            Event.broadcastComplete ['.'] 0, Event.dispatchTranslate ['.'] 0]) :=
  ⟨by decide, C2_amended '.' (by decide)⟩

/-!
## Claim C7 — whitespace normalization of extracted sentences
-/

/-- C7 (counterexample): the claim says every extracted sentence has no run
of two or more consecutive whitespace characters, but for input `"a  b."`
the extracted sentence is `"a  b."` itself: the split parts are only
stripped at their ends and joined, so whitespace runs inside one part
survive. -/
theorem C7_counterexample :
    "a  b.".toList ∈ (extract_complete_sentences "a  b.".toList).1
      ∧ hasDoubleSpace "a  b.".toList = true := by
  decide

/-- C8 (counterexample): on a call whose provider raises on every attempt
(`max_retries = 2`, so three attempts), the worker's error counter ends at
3, not 1: `error_count += 1` sits inside the `except` block and runs once
per failed attempt, not once after exhausting retries. -/
theorem C8_counterexample :
    (Translator.translate ⟨true, 12⟩ initTranslator "hi".toList alwaysRaises 2).1.error_count = 3
      ∧ (3 : Nat) ≠ 1 := by
  decide

/-!
## Claims C5 and C8 — the retry loop under total provider failure
-/

theorem translateGo_raises_eq (cfg : TranslatorConfig) (msg : List Char) (oracle : Nat → Attempt)
    (h : ∀ k, oracle k = Attempt.raises) :
    ∀ (fuel : Nat) (s : TranslatorState) (rc : Nat),
      translateGo cfg s msg oracle rc fuel
        = ({ s with error_count := s.error_count + fuel }, [], fuel) := by
  intro fuel
  induction fuel with
  | zero => intro s rc; simp [translateGo]
  | succ n ih =>
    intro s rc
    simp only [translateGo, h rc]
    rw [ih]
    rw [Nat.add_assoc, Nat.add_comm 1 n]

/-- C5: if the provider raises on every attempt, `translate` makes at most
`max_retries + 1` provider invocations and returns the empty string; the
`except` block absorbs every exception, so the call returns normally (the
model's `translate` is a total function into a result value). -/
theorem C5_all_attempts_fail (cfg : TranslatorConfig) (s : TranslatorState) (msg : List Char)
    (oracle : Nat → Attempt) (max_retries : Nat) (h : ∀ k, oracle k = Attempt.raises) :
    (Translator.translate cfg s msg oracle max_retries).2.1 = []
      ∧ (Translator.translate cfg s msg oracle max_retries).2.2 ≤ max_retries + 1 := by
  unfold Translator.translate
  by_cases hm : strip msg = []
  · simp [hm]
  · rw [if_neg hm, translateGo_raises_eq cfg msg oracle h]
    exact ⟨rfl, le_refl _⟩

/-- Witness for `C5_all_attempts_fail`: a concrete worker, message `"abc"`
and the always-raising provider with `max_retries = 2`. -/
theorem C5_all_attempts_fail_witness :
    (Translator.translate ⟨true, 12⟩ initTranslator "abc".toList alwaysRaises 2).2.1 = []
      ∧ (Translator.translate ⟨true, 12⟩ initTranslator "abc".toList alwaysRaises 2).2.2 ≤ 3 :=
  C5_all_attempts_fail ⟨true, 12⟩ initTranslator "abc".toList alwaysRaises 2 (fun _ => rfl)

/-- C8 (amended): when every provider attempt raises and the message is not
whitespace-only, the call increments the error counter once per failed
attempt: by `max_retries + 1` in total, not exactly once. -/
theorem C8_amended (cfg : TranslatorConfig) (s : TranslatorState) (msg : List Char)
    (oracle : Nat → Attempt) (max_retries : Nat)
    (h : ∀ k, oracle k = Attempt.raises) (hm : strip msg ≠ []) :
    (Translator.translate cfg s msg oracle max_retries).1.error_count
      = s.error_count + (max_retries + 1) := by
  unfold Translator.translate
  rw [if_neg hm, translateGo_raises_eq cfg msg oracle h]

/-- Witness for `C8_amended` at a concrete worker and call. -/
theorem C8_amended_witness :
    (Translator.translate ⟨true, 12⟩ initTranslator "hi".toList alwaysRaises 2).1.error_count
      = 0 + 3 :=
  C8_amended ⟨true, 12⟩ initTranslator "hi".toList alwaysRaises 2 (fun _ => rfl) (by decide)

/-!
## Claim C4 — the sliding-window history invariant
-/

theorem pairsFlat_cons (pr : List Char × List Char) (ps : List (List Char × List Char)) :
    pairsFlat (pr :: ps)
      = Msg.mk Role.user pr.1 :: Msg.mk Role.assistant pr.2 :: pairsFlat ps := by
  simp [pairsFlat]

theorem pairsFlat_append (a b : List (List Char × List Char)) :
    pairsFlat (a ++ b) = pairsFlat a ++ pairsFlat b := by
  simp [pairsFlat]

theorem pairsFlat_length (ps : List (List Char × List Char)) :
    (pairsFlat ps).length = 2 * ps.length := by
  induction ps with
  | nil => rfl
  | cons pr rest ih =>
    rw [pairsFlat_cons]
    simp only [List.length_cons, ih]
    omega

/-- Appending one user/assistant pair to a full deque evicts exactly the
oldest pair, two entries at a time, preserving pair adjacency. -/
theorem dequeAppend_pair_fifo (maxPairs : Nat) (hm : 1 ≤ maxPairs)
    (ps : List (List Char × List Char)) (hlen : ps.length ≤ maxPairs) (m t : List Char) :
    dequeAppend (maxPairs * 2)
        (dequeAppend (maxPairs * 2) (pairsFlat ps) ⟨Role.user, m⟩) ⟨Role.assistant, t⟩
      = pairsFlat (if ps.length = maxPairs then ps.drop 1 ++ [(m, t)] else ps ++ [(m, t)]) := by
  have h0 : ¬ (maxPairs * 2 = 0) := by omega
  by_cases hfull : ps.length = maxPairs
  · rw [if_pos hfull]
    have hps : ps ≠ [] := by
      intro hnil
      rw [hnil] at hfull
      simp at hfull
      omega
    obtain ⟨pr, rest, rfl⟩ := List.exists_cons_of_ne_nil hps
    have hrest : rest.length = maxPairs - 1 := by
      simp at hfull
      omega
    have hlen1 : (pairsFlat (pr :: rest)).length = maxPairs * 2 := by
      rw [pairsFlat_length]
      simp
      omega
    have e1 : dequeAppend (maxPairs * 2) (pairsFlat (pr :: rest)) ⟨Role.user, m⟩
        = Msg.mk Role.assistant pr.2 :: (pairsFlat rest ++ [Msg.mk Role.user m]) := by
      unfold dequeAppend
      rw [if_neg h0, if_neg (by simp only [hlen1]; omega)]
      rw [pairsFlat_cons]
      simp
    rw [e1]
    have e2 : dequeAppend (maxPairs * 2)
        (Msg.mk Role.assistant pr.2 :: (pairsFlat rest ++ [Msg.mk Role.user m]))
        ⟨Role.assistant, t⟩
        = pairsFlat rest ++ [Msg.mk Role.user m, Msg.mk Role.assistant t] := by
      unfold dequeAppend
      rw [if_neg h0, if_neg (by simp [pairsFlat_length, hrest]; omega)]
      simp
    rw [e2]
    rw [List.drop_one, List.tail_cons, pairsFlat_append, pairsFlat_cons]
    simp [pairsFlat]
  · rw [if_neg hfull]
    have hlt : ps.length < maxPairs := lt_of_le_of_ne hlen hfull
    have e1 : dequeAppend (maxPairs * 2) (pairsFlat ps) ⟨Role.user, m⟩
        = pairsFlat ps ++ [Msg.mk Role.user m] := by
      unfold dequeAppend
      rw [if_neg h0, if_pos (by rw [pairsFlat_length]; omega)]
    rw [e1]
    have e2 : dequeAppend (maxPairs * 2) (pairsFlat ps ++ [Msg.mk Role.user m])
        ⟨Role.assistant, t⟩
        = pairsFlat ps ++ [Msg.mk Role.user m, Msg.mk Role.assistant t] := by
      unfold dequeAppend
      rw [if_neg h0, if_pos (by simp [pairsFlat_length]; omega)]
      simp
    rw [e2, pairsFlat_append, pairsFlat_cons]
    simp [pairsFlat]

theorem recordPair_rep (cfg : TranslatorConfig) (hm : 1 ≤ cfg.max_context_pairs)
    (ps : List (List Char × List Char)) (hlen : ps.length ≤ cfg.max_context_pairs)
    (msg t : List Char) :
    ∃ qs, recordPair cfg (pairsFlat ps) msg t = pairsFlat qs
      ∧ qs.length ≤ cfg.max_context_pairs := by
  unfold recordPair
  by_cases hb : (cfg.use_context && !t.isEmpty) = true
  · rw [if_pos hb, dequeAppend_pair_fifo cfg.max_context_pairs hm ps hlen msg t]
    by_cases hf : ps.length = cfg.max_context_pairs
    · refine ⟨ps.drop 1 ++ [(msg, t)], by rw [if_pos hf], ?_⟩
      simp
      omega
    · refine ⟨ps ++ [(msg, t)], by rw [if_neg hf], ?_⟩
      simp
      omega
  · rw [if_neg hb]
    exact ⟨ps, rfl, hlen⟩

theorem translateGo_rep (cfg : TranslatorConfig) (hm : 1 ≤ cfg.max_context_pairs)
    (msg : List Char) (oracle : Nat → Attempt) :
    ∀ (fuel : Nat) (s : TranslatorState) (rc : Nat) (ps : List (List Char × List Char)),
      s.message_history = pairsFlat ps → ps.length ≤ cfg.max_context_pairs →
      ∃ qs, (translateGo cfg s msg oracle rc fuel).1.message_history = pairsFlat qs
        ∧ qs.length ≤ cfg.max_context_pairs := by
  intro fuel
  induction fuel with
  | zero =>
    intro s rc ps hrep hlen
    exact ⟨ps, hrep, hlen⟩
  | succ n ih =>
    intro s rc ps hrep hlen
    cases horacle : oracle rc with
    | returns t =>
      obtain ⟨qs, hq, hqlen⟩ := recordPair_rep cfg hm ps hlen msg t
      by_cases ht : t = []
      · refine ⟨qs, ?_, hqlen⟩
        simp only [translateGo, horacle, if_pos ht, hrep]
        exact hq
      · refine ⟨qs, ?_, hqlen⟩
        simp only [translateGo, horacle, if_neg ht, hrep]
        exact hq
    | raises =>
      have hres : (translateGo cfg s msg oracle rc (n + 1)).1
          = (translateGo cfg { s with error_count := s.error_count + 1 } msg oracle (rc + 1) n).1 := by
        simp only [translateGo, horacle]
      rw [hres]
      exact ih { s with error_count := s.error_count + 1 } (rc + 1) ps hrep hlen

theorem translate_rep (cfg : TranslatorConfig) (hm : 1 ≤ cfg.max_context_pairs)
    (s : TranslatorState) (msg : List Char) (oracle : Nat → Attempt) (max_retries : Nat)
    (ps : List (List Char × List Char))
    (hrep : s.message_history = pairsFlat ps) (hlen : ps.length ≤ cfg.max_context_pairs) :
    ∃ qs, (Translator.translate cfg s msg oracle max_retries).1.message_history = pairsFlat qs
      ∧ qs.length ≤ cfg.max_context_pairs := by
  unfold Translator.translate
  by_cases hmsg : strip msg = []
  · rw [if_pos hmsg]
    exact ⟨ps, hrep, hlen⟩
  · rw [if_neg hmsg]
    exact translateGo_rep cfg hm msg oracle (max_retries + 1) s 0 ps hrep hlen

theorem runTranslator_rep (cfg : TranslatorConfig) (hm : 1 ≤ cfg.max_context_pairs) :
    ∀ (calls : List Call) (s : TranslatorState) (ps : List (List Char × List Char)),
      s.message_history = pairsFlat ps → ps.length ≤ cfg.max_context_pairs →
      ∃ qs, (runTranslator cfg s calls).message_history = pairsFlat qs
        ∧ qs.length ≤ cfg.max_context_pairs := by
  intro calls
  induction calls with
  | nil =>
    intro s ps hrep hlen
    exact ⟨ps, hrep, hlen⟩
  | cons c cs ih =>
    intro s ps hrep hlen
    obtain ⟨qs, hq, hqlen⟩ := translate_rep cfg hm s c.msg c.oracle c.max_retries ps hrep hlen
    exact ih (Translator.translate cfg s c.msg c.oracle c.max_retries).1 qs hq hqlen

/-- C4: with `max_context_pairs ≥ 1` (the code clamps it to `[3, 20]` or
uses the default 12), after any sequence of `translate` calls on one worker
the history is a flattening of at most `max_context_pairs` user/assistant
pairs — so its length is even and at most `2 × max_context_pairs`, and each
user entry is immediately followed by its own assistant entry; moreover,
appending a pair to a full history evicts exactly the oldest pair (strict
FIFO, two entries at a time). -/
theorem C4_history_invariant (maxPairs : Nat) (hm : 1 ≤ maxPairs) (uc : Bool)
    (calls : List Call) :
    (∃ qs : List (List Char × List Char),
        (runTranslator ⟨uc, maxPairs⟩ initTranslator calls).message_history = pairsFlat qs
          ∧ qs.length ≤ maxPairs
          ∧ (runTranslator ⟨uc, maxPairs⟩ initTranslator calls).message_history.length
              = 2 * qs.length)
      ∧ ∀ (ps : List (List Char × List Char)) (m t : List Char), ps.length = maxPairs →
          dequeAppend (maxPairs * 2)
              (dequeAppend (maxPairs * 2) (pairsFlat ps) ⟨Role.user, m⟩) ⟨Role.assistant, t⟩
            = pairsFlat (ps.drop 1 ++ [(m, t)]) := by
  constructor
  · obtain ⟨qs, hq, hqlen⟩ :=
      runTranslator_rep ⟨uc, maxPairs⟩ hm calls initTranslator [] rfl (by simp)
    exact ⟨qs, hq, hqlen, by rw [hq, pairsFlat_length]⟩
  · intro ps m t hps
    rw [dequeAppend_pair_fifo maxPairs hm ps (le_of_eq hps) m t, if_pos hps]

/-- Witness for `C4_history_invariant`: the default 12-pair window, context
enabled, and one successful call. -/
theorem C4_history_invariant_witness :
    ∃ qs : List (List Char × List Char),
      (runTranslator ⟨true, 12⟩ initTranslator
          [⟨"a".toList, fun _ => Attempt.returns "x".toList, 2⟩]).message_history = pairsFlat qs
        ∧ qs.length ≤ 12
        ∧ (runTranslator ⟨true, 12⟩ initTranslator
            [⟨"a".toList, fun _ => Attempt.returns "x".toList, 2⟩]).message_history.length
            = 2 * qs.length :=
  (C4_history_invariant 12 (by omega) true
    [⟨"a".toList, fun _ => Attempt.returns "x".toList, 2⟩]).1

/-!
## Claim C3 — the buffer/sentence-id invariant
-/

theorem step_inv (s : AccState) (raw : List Char) (h : AccInv s) : AccInv (step s raw).1 := by
  simp only [step, AccInv] at *
  split
  · exact h
  next h1 =>
    have hft : ¬ (strip raw = []) := fun hc => h1 (Or.inl hc)
    cases hid : s.current_sentence_id <;>
      simp only [hid] <;>
      split_ifs <;>
      simp_all

theorem run_inv (frags : List (List Char)) :
    ∀ (s : AccState), AccInv s → AccInv (run s frags).1 := by
  induction frags with
  | nil => intro s h; exact h
  | cons f fs ih =>
    intro s h
    exact ih (step s f).1 (step_inv s f h)

/-- C3: starting from the initial empty buffer, after any sequence of
ingested transcript fragments the accumulated text is empty exactly when
the current sentence id is unset. -/
theorem C3_buffer_id_invariant (frags : List (List Char)) :
    (run initState frags).1.accumulated_text = []
      ↔ (run initState frags).1.current_sentence_id = none :=
  run_inv frags initState (by simp [AccInv, initState])

/-!
## Claim C10 — inputs that are only punctuation characters
-/

theorem splitPunct_ne_nil (t : List Char) : splitPunct t ≠ [] := by
  cases t with
  | nil => simp [splitPunct]
  | cons c rest =>
    simp only [splitPunct]
    split
    · simp
    · split <;> simp

theorem buildSentences_congr {p1 p2 : List Char} (h : strip p1 = strip p2)
    (rest : List (List Char)) (b : List Char) :
    buildSentences (p1 :: rest) b = buildSentences (p2 :: rest) b := by
  simp only [buildSentences, h]

theorem strip_cons_space {c : Char} (hc : pyIsSpace c = true) (l : List Char) :
    strip (c :: l) = strip l := by
  unfold strip
  rw [List.reverse_cons, List.dropWhile_append]
  by_cases he : (l.reverse.dropWhile pyIsSpace).isEmpty
  · have h0 : l.reverse.dropWhile pyIsSpace = [] := by
      cases hcase : l.reverse.dropWhile pyIsSpace
      · rfl
      · rw [hcase] at he; simp [List.isEmpty] at he
    rw [if_pos he, h0]
    rw [List.dropWhile_cons_of_pos (by simpa using hc)]
    simp
  · rw [if_neg he]
    rw [List.reverse_append]
    simp only [List.reverse_cons, List.reverse_nil, List.nil_append, List.singleton_append]
    rw [List.dropWhile_cons_of_pos (by simpa using hc)]

theorem buildSentences_space_punct :
    ∀ (t : List Char), (∀ x ∈ t, pyIsSpace x = true ∨ isPunct x = true) →
      buildSentences (splitPunct t) [] = ([], []) := by
  intro t
  induction t with
  | nil => intro _; simp [splitPunct, buildSentences, strip]
  | cons c rest ih =>
    intro hall
    have hrest : ∀ x ∈ rest, pyIsSpace x = true ∨ isPunct x = true :=
      fun x hx => hall x (List.mem_cons_of_mem c hx)
    by_cases hc : isPunct c = true
    · simp only [splitPunct, if_pos hc]
      have h1 : buildSentences ([] :: [c] :: splitPunct rest) []
          = buildSentences ([c] :: splitPunct rest) [] := by
        simp only [buildSentences]
        rw [if_pos (by simp [strip])]
      rw [h1]
      have h2 : buildSentences ([c] :: splitPunct rest) []
          = buildSentences (splitPunct rest) [] := by
        simp only [buildSentences, strip_single_punct hc]
        rw [if_neg (by simp), if_pos (by simp [isPunctStr, hc]), if_pos (by simp [strip])]
      rw [h2]
      exact ih hrest
    · have hsp : pyIsSpace c = true := by
        rcases hall c (List.mem_cons_self c rest) with h | h
        · exact h
        · exact absurd h hc
      cases hsplit : splitPunct rest with
      | nil => exact absurd hsplit (splitPunct_ne_nil rest)
      | cons p ps =>
        have hsp2 : splitPunct (c :: rest) = (c :: p) :: ps := by
          simp only [splitPunct]
          rw [if_neg hc, hsplit]
        rw [hsp2, buildSentences_congr (strip_cons_space hsp p) ps [], ← hsplit]
        exact ih hrest

/-- C10: any input whose stripped form is two or more ending-punctuation
characters and nothing else is discarded entirely: no completion marker, no
sentences, no remainder. -/
theorem C10_only_punctuation (t : List Char) (h2 : 2 ≤ (strip t).length)
    (hp : ∀ x ∈ strip t, isPunct x = true) :
    extract_complete_sentences t = ([], []) := by
  have hne : ¬ (strip t = []) := by
    intro hc
    rw [hc] at h2
    simp at h2
  have hnp : isPunctStr (strip t) = false := by
    cases hs : strip t with
    | nil => exact absurd hs hne
    | cons a l =>
      cases l with
      | nil => rw [hs] at h2; simp at h2
      | cons b l2 => rfl
  have hall : ∀ x ∈ t, pyIsSpace x = true ∨ isPunct x = true := by
    intro x hx
    by_cases hsx : pyIsSpace x = true
    · exact Or.inl hsx
    · exact Or.inr (hp x (mem_strip_of_not_space hx (by simpa using hsx)))
  simp only [extract_complete_sentences]
  rw [if_neg hne, if_neg (by simp [hnp]), buildSentences_space_punct t hall]
  simp [strip]

/-- Witness for `C10_only_punctuation` at the input `".."`. -/
theorem C10_only_punctuation_witness :
    extract_complete_sentences "..".toList = ([], []) :=
  C10_only_punctuation "..".toList (by decide) (by decide)

/-!
## Claim C7 (amended) — extracted sentences carry no edge whitespace
-/

theorem buildSentences_cons_blank {part : List Char} (h : strip part = [])
    (rest : List (List Char)) (b : List Char) :
    buildSentences (part :: rest) b = buildSentences rest b := by
  simp only [buildSentences]
  rw [if_pos h]

theorem buildSentences_cons_punct {part : List Char} (h1 : strip part ≠ [])
    (h2 : isPunctStr (strip part) = true) {b : List Char} (h3 : strip b ≠ [])
    (rest : List (List Char)) :
    buildSentences (part :: rest) b
      = ((strip b ++ strip part) :: (buildSentences rest []).1,
         (buildSentences rest []).2) := by
  simp only [buildSentences]
  rw [if_neg h1, if_pos h2, if_neg h3]

theorem buildSentences_cons_punct_skip {part : List Char} (h1 : strip part ≠ [])
    (h2 : isPunctStr (strip part) = true) {b : List Char} (h3 : strip b = [])
    (rest : List (List Char)) :
    buildSentences (part :: rest) b = buildSentences rest b := by
  simp only [buildSentences]
  rw [if_neg h1, if_pos h2, if_pos h3]

theorem buildSentences_cons_text {part : List Char} (h1 : strip part ≠ [])
    (h2 : isPunctStr (strip part) = false) (rest : List (List Char)) (b : List Char) :
    buildSentences (part :: rest) b
      = buildSentences rest (if b = [] then strip part else b ++ ' ' :: strip part) := by
  simp only [buildSentences]
  rw [if_neg h1, if_neg (by simp [h2])]

theorem isPunctStr_eq {p : List Char} (h : isPunctStr p = true) :
    ∃ c, p = [c] ∧ isPunct c = true := by
  cases p with
  | nil => simp [isPunctStr] at h
  | cons a l =>
    cases l with
    | nil => exact ⟨a, rfl, by simpa [isPunctStr] using h⟩
    | cons b l2 => simp [isPunctStr] at h

theorem mem_buildSentences :
    ∀ (parts : List (List Char)) (building e : List Char),
      e ∈ (buildSentences parts building).1 →
      ∃ (b : List Char) (c : Char), e = strip b ++ [c] ∧ isPunct c = true := by
  intro parts
  induction parts with
  | nil =>
    intro building e he
    simp [buildSentences] at he
  | cons part rest ih =>
    intro building e he
    by_cases h1 : strip part = []
    · rw [buildSentences_cons_blank h1] at he
      exact ih building e he
    · by_cases h2 : isPunctStr (strip part) = true
      · by_cases h3 : strip building = []
        · rw [buildSentences_cons_punct_skip h1 h2 h3] at he
          exact ih building e he
        · rw [buildSentences_cons_punct h1 h2 h3] at he
          rcases List.mem_cons.mp he with rfl | hm
          · obtain ⟨c, hc, hcp⟩ := isPunctStr_eq h2
            exact ⟨building, c, by rw [hc], hcp⟩
          · exact ih [] e hm
      · rw [buildSentences_cons_text h1 (by simpa using h2)] at he
        exact ih _ e he

/-- C7 (amended): every sentence returned by `extract_complete_sentences`
has no leading or trailing whitespace (`strip` of it is itself); internal
whitespace runs, however, are preserved (see the counterexample). -/
theorem C7_amended (t e : List Char) (he : e ∈ (extract_complete_sentences t).1) :
    strip e = e := by
  by_cases h1 : strip t = []
  · simp only [extract_complete_sentences, if_pos h1] at he
    simp at he
  · by_cases h2 : isPunctStr (strip t) = true
    · simp only [extract_complete_sentences, if_neg h1, if_pos h2] at he
      simp at he
      rw [he]
      decide
    · simp only [extract_complete_sentences, if_neg h1, if_neg h2] at he
      obtain ⟨b, c, rfl, hcp⟩ := mem_buildSentences (splitPunct t) [] e he
      exact strip_append_of_not_space (isPunct_not_space hcp)

/-- Witness for `C7_amended` at input `"ab."` and its extracted sentence. -/
theorem C7_amended_witness :
    strip "ab.".toList = "ab.".toList :=
  C7_amended "ab.".toList "ab.".toList (by decide)

/-!
## Claim C6 — round trip over well-formed punctuated sentences
-/

theorem splitPunct_prepend_body :
    ∀ (b : List Char), (∀ x ∈ b, isPunct x = false) →
    ∀ (t p : List Char) (ps : List (List Char)), splitPunct t = p :: ps →
      splitPunct (b ++ t) = (b ++ p) :: ps := by
  intro b
  induction b with
  | nil =>
    intro _ t p ps h
    simpa using h
  | cons x b2 ih =>
    intro hb t p ps h
    have hx : isPunct x = false := hb x (List.mem_cons_self x b2)
    have ih2 := ih (fun y hy => hb y (List.mem_cons_of_mem x hy)) t p ps h
    simp only [List.cons_append, splitPunct]
    rw [if_neg (by simp [hx])]
    simp only [List.append_eq]
    rw [ih2]

theorem sentencesFlat_cons (pr : List Char × Char) (rest : List (List Char × Char)) :
    sentencesFlat (pr :: rest) = pr.1 ++ pr.2 :: sentencesFlat rest := by
  simp [sentencesFlat]

theorem sentenceParts_cons (pr : List Char × Char) (rest : List (List Char × Char)) :
    sentenceParts (pr :: rest) = pr.1 :: [pr.2] :: sentenceParts rest := by
  simp [sentenceParts]

theorem splitPunct_sentencesFlat :
    ∀ (ss : List (List Char × Char)),
      (∀ pr ∈ ss, ∀ x ∈ pr.1, isPunct x = false) →
      (∀ pr ∈ ss, isPunct pr.2 = true) →
      splitPunct (sentencesFlat ss) = sentenceParts ss ++ [[]] := by
  intro ss
  induction ss with
  | nil =>
    intro _ _
    simp [sentencesFlat, sentenceParts, splitPunct]
  | cons pr rest ih =>
    intro hb hp
    have hrest := ih (fun q hq => hb q (List.mem_cons_of_mem pr hq))
      (fun q hq => hp q (List.mem_cons_of_mem pr hq))
    have hpc : isPunct pr.2 = true := hp pr (List.mem_cons_self pr rest)
    have hmid : splitPunct (pr.2 :: sentencesFlat rest)
        = [] :: [pr.2] :: splitPunct (sentencesFlat rest) := by
      simp only [splitPunct]
      rw [if_pos hpc]
    rw [sentencesFlat_cons, sentenceParts_cons]
    rw [splitPunct_prepend_body pr.1 (hb pr (List.mem_cons_self pr rest))
      (pr.2 :: sentencesFlat rest) [] ([pr.2] :: splitPunct (sentencesFlat rest)) hmid]
    rw [hrest]
    simp

theorem isPunctStr_strip_of_no_punct {b : List Char}
    (hb : ∀ x ∈ b, isPunct x = false) : isPunctStr (strip b) = false := by
  cases hs : strip b with
  | nil => rfl
  | cons a l =>
    cases l with
    | nil =>
      have ha : a ∈ strip b := by rw [hs]; exact List.mem_cons_self a []
      simpa [isPunctStr] using hb a (mem_of_mem_strip ha)
    | cons c l2 => rfl

theorem buildSentences_sentenceParts :
    ∀ (ss : List (List Char × Char)), (∀ pr ∈ ss, WFSentence pr) →
      buildSentences (sentenceParts ss ++ [[]]) []
        = (ss.map (fun pr => strip pr.1 ++ [pr.2]), []) := by
  intro ss
  induction ss with
  | nil =>
    intro _
    simp only [sentenceParts, List.map_nil, List.flatten_nil, List.nil_append]
    rw [buildSentences_cons_blank (by simp [strip])]
    rfl
  | cons pr rest ih =>
    intro hwf
    have hwfp : WFSentence pr := hwf pr (List.mem_cons_self pr rest)
    have hrest := ih (fun q hq => hwf q (List.mem_cons_of_mem pr hq))
    rw [sentenceParts_cons]
    simp only [List.cons_append]
    rw [buildSentences_cons_text hwfp.1 (isPunctStr_strip_of_no_punct hwfp.2.1)]
    rw [if_pos rfl]
    have hpc : isPunct pr.2 = true := hwfp.2.2
    have hstr : strip [pr.2] = [pr.2] := strip_single_punct hpc
    rw [buildSentences_cons_punct (by rw [hstr]; simp)
      (by rw [hstr]; simp [isPunctStr, hpc]) (by rw [strip_idem]; exact hwfp.1)]
    rw [hrest, hstr, strip_idem]
    simp

theorem head_not_space_of_strip {l : List Char} {y : Char} {ys : List Char}
    (h : strip l = y :: ys) : pyIsSpace y = false := by
  have h2 := (stripped_strip l).1
  rw [h] at h2
  by_contra hy
  have hy2 : pyIsSpace y = true := by simpa using hy
  rw [List.dropWhile_cons_of_pos (by simpa using hy2)] at h2
  have hlen := congrArg List.length h2
  have hle := (List.dropWhile_sublist (l := ys) pyIsSpace).length_le
  simp at hlen
  omega

/-- C6: for a non-empty list of well-formed punctuated sentences (non-blank
punctuation-free body, one ending-punctuation character each) concatenated
with no trailing fragment, `extract_complete_sentences` returns exactly one
sentence per input sentence, in input order (each body end-stripped with its
punctuation appended), and an empty remainder. -/
theorem C6_round_trip (ss : List (List Char × Char)) (hne : ss ≠ [])
    (hwf : ∀ pr ∈ ss, WFSentence pr) :
    extract_complete_sentences (sentencesFlat ss)
      = (ss.map (fun pr => strip pr.1 ++ [pr.2]), []) := by
  obtain ⟨pr, rest, rfl⟩ := List.exists_cons_of_ne_nil hne
  have hwfp : WFSentence pr := hwf pr (List.mem_cons_self pr rest)
  obtain ⟨y, ys, hy⟩ : ∃ y ys, strip pr.1 = y :: ys := by
    cases hs : strip pr.1 with
    | nil => exact absurd hs hwfp.1
    | cons a l => exact ⟨a, l, rfl⟩
  have hysp : pyIsSpace y = false := head_not_space_of_strip hy
  have hymem : y ∈ pr.1 := mem_of_mem_strip (by rw [hy]; exact List.mem_cons_self y ys)
  have hynp : isPunct y = false := hwfp.2.1 y hymem
  have hyflat : y ∈ sentencesFlat (pr :: rest) := by
    rw [sentencesFlat_cons]
    exact List.mem_append_left _ hymem
  have hg1 : ¬ (strip (sentencesFlat (pr :: rest)) = []) :=
    strip_ne_nil_of_mem hyflat hysp
  have hg2 : isPunctStr (strip (sentencesFlat (pr :: rest))) = false := by
    cases hps : isPunctStr (strip (sentencesFlat (pr :: rest))) with
    | false => rfl
    | true =>
      obtain ⟨d, hd, hdp⟩ := isPunctStr_eq hps
      have hy2 : y ∈ strip (sentencesFlat (pr :: rest)) :=
        mem_strip_of_not_space hyflat hysp
      rw [hd] at hy2
      simp at hy2
      rw [hy2] at hynp
      rw [hdp] at hynp
      cases hynp
  simp only [extract_complete_sentences]
  rw [if_neg hg1, if_neg (by simp [hg2])]
  rw [splitPunct_sentencesFlat (pr :: rest) (fun q hq => (hwf q hq).2.1)
    (fun q hq => (hwf q hq).2.2)]
  rw [buildSentences_sentenceParts (pr :: rest) hwf]
  simp [strip]

/-- Witness for `C6_round_trip` with the two sentences `"ab."` and `"cd?"`. -/
theorem C6_round_trip_witness :
    extract_complete_sentences (sentencesFlat [("ab".toList, '.'), ("cd".toList, '?')])
      = ([("ab".toList, '.'), ("cd".toList, '?')].map (fun pr => strip pr.1 ++ [pr.2]), []) :=
  C6_round_trip [("ab".toList, '.'), ("cd".toList, '?')] (by decide) (by decide)
